import Mathlib

/-!
Verification of the generational arena (`GenVec`) from `src/genvec.rs`.

The Rust code is shallowly embedded:
* `Vec<GenVecEntry<T>>` becomes `List (GenVecEntry T)`.
* `u64` generations become `Nat`; the one arithmetic operation on them,
  `el.generation += 1` in `free`, aborts on overflow under Rust's checked
  (default/debug) semantics, which we model as `PanicOr.panic` when the
  increment would reach `2 ^ 64`.
* The free list is a `Vec<usize>` used as a stack (push/pop at the end);
  we represent it as a `List Nat` whose HEAD is the Rust vector's last
  element, so `push` is `cons` and `pop` takes the head.
* Operations that can panic (direct indexing `self.vec[h.index]`,
  overflow) return `PanicOr`; `ok` is a normal return.
* `get_mut` / `index_mut` / `iter_mut` return mutable references in Rust;
  observably they give access to exactly the same elements as their
  shared counterparts, so they are embedded with the same result type.
-/

/-- Result of a Rust operation: either a panic (out-of-bounds indexing or
checked-arithmetic abort) or a normal return. -/
inductive PanicOr (α : Type) where
  | panic : PanicOr α
  | ok : α → PanicOr α
deriving DecidableEq

/-- `EntryHandle<T>`: generation plus slot index.  The `PhantomData<T>`
type tag is compile-time only in Rust; we keep the type parameter as a
phantom parameter. -/
structure EntryHandle (T : Type) where
  generation : Nat
  index : Nat
deriving DecidableEq

/-- `GenVecEntry<T>`: one slot, a generation counter and the stored datum.
The source comments this field "even means filled, odd means empty". -/
structure GenVecEntry (T : Type) where
  generation : Nat
  data : T
deriving DecidableEq

/-- `GenVec<T>`: the slot vector plus the free list (stack of reusable
slot indices; head of the list = top of the Rust stack). -/
structure GenVec (T : Type) where
  vec : List (GenVecEntry T)
  freelist : List Nat
deriving DecidableEq

namespace GenVec

variable {T : Type}

/-- `GenVec::with_capacity`: empty slot vector, empty free list (the
capacity argument only pre-reserves storage and has no semantic effect). -/
def with_capacity (_capacity : Nat) : GenVec T :=
  { vec := [], freelist := [] }

/-- `GenVec::new()`: `with_capacity(8)`. -/
def new : GenVec T :=
  with_capacity 8

/-- `GenVec::alloc`.  Pops the free list if possible: the returned handle
carries the generation ALREADY stored in the reused slot (no increment),
and only the slot's data is overwritten.  Otherwise a new slot with
generation 0 is appended.  `self.vec[index]` in the reuse branch panics
if the popped index is out of bounds. -/
def alloc (gv : GenVec T) (data : T) : PanicOr (EntryHandle T × GenVec T) :=
  match gv.freelist with
  | index :: rest =>
    match gv.vec[index]? with
    | some el =>
      .ok (⟨el.generation, index⟩,
        { vec := gv.vec.set index ⟨el.generation, data⟩, freelist := rest })
    | none => .panic
  | [] =>
    .ok (⟨0, gv.vec.length⟩,
      { vec := gv.vec ++ [⟨0, data⟩], freelist := [] })

/-- `GenVec::free`.  `&mut self.vec[h.index]` panics when out of bounds;
a generation mismatch is a silent no-op; otherwise the generation is
incremented (u64 checked add: abort, i.e. panic, at `2 ^ 64`) and the
index is pushed onto the free list. -/
def free (gv : GenVec T) (h : EntryHandle T) : PanicOr (GenVec T) :=
  match gv.vec[h.index]? with
  | none => .panic
  | some el =>
    if el.generation ≠ h.generation then
      .ok gv
    else if el.generation + 1 < 2 ^ 64 then
      .ok { vec := gv.vec.set h.index ⟨el.generation + 1, el.data⟩,
            freelist := h.index :: gv.freelist }
    else .panic

/-- `GenVec::exists` (named `existsb` because `exists` is a Lean keyword):
bounds-checked lookup via `self.vec.get(h.index)`, then generation
equality; out of range gives `false`, never a panic. -/
def existsb (gv : GenVec T) (h : EntryHandle T) : Bool :=
  match gv.vec[h.index]? with
  | some el => el.generation == h.generation
  | none => false

/-- `GenVec::get_ref`: `self.vec[h.index]` panics out of range; then
`None` on generation mismatch, `Some(&data)` on match. -/
def get_ref (gv : GenVec T) (h : EntryHandle T) : PanicOr (Option T) :=
  match gv.vec[h.index]? with
  | none => .panic
  | some el =>
    if el.generation ≠ h.generation then .ok none else .ok (some el.data)

/-- `GenVec::get_mut`: same lookup and generation test as `get_ref`,
returning a mutable reference; embedded as the element it gives access to. -/
def get_mut (gv : GenVec T) (h : EntryHandle T) : PanicOr (Option T) :=
  match gv.vec[h.index]? with
  | none => .panic
  | some el =>
    if el.generation ≠ h.generation then .ok none else .ok (some el.data)

/-- `GenVec::get_copy` (requires `T: Copy` in Rust): same test, returns
the value by copy. -/
def get_copy (gv : GenVec T) (h : EntryHandle T) : PanicOr (Option T) :=
  match gv.vec[h.index]? with
  | none => .panic
  | some el =>
    if el.generation ≠ h.generation then .ok none else .ok (some el.data)

/-- `GenVec::index_ref`: panics out of range AND on generation mismatch. -/
def index_ref (gv : GenVec T) (h : EntryHandle T) : PanicOr T :=
  match gv.vec[h.index]? with
  | none => .panic
  | some el =>
    if el.generation ≠ h.generation then .panic else .ok el.data

/-- `GenVec::index_mut`: mutable variant of `index_ref`, same observable
lookup. -/
def index_mut (gv : GenVec T) (h : EntryHandle T) : PanicOr T :=
  match gv.vec[h.index]? with
  | none => .panic
  | some el =>
    if el.generation ≠ h.generation then .panic else .ok el.data

/-- `GenVec::index_copy`: copy variant of `index_ref`. -/
def index_copy (gv : GenVec T) (h : EntryHandle T) : PanicOr T :=
  match gv.vec[h.index]? with
  | none => .panic
  | some el =>
    if el.generation ≠ h.generation then .panic else .ok el.data

/-- `GenVec::iter`: filters the slot vector in order, keeping the data of
slots whose generation has bit 0 clear (`(item.generation & 1) == 0`). -/
def iter (gv : GenVec T) : List T :=
  gv.vec.filterMap
    (fun item => if item.generation &&& 1 == 0 then some item.data else none)

/-- `GenVec::iter_mut`: the same parity-filtered traversal with mutable
references; embedded as the list of elements it visits. -/
def iter_mut (gv : GenVec T) : List T :=
  gv.vec.filterMap
    (fun item => if item.generation &&& 1 == 0 then some item.data else none)

/-- Generation currently stored at slot `i`, if the slot exists. -/
def genAt (gv : GenVec T) (i : Nat) : Option Nat :=
  (gv.vec[i]?).map GenVecEntry.generation

/-! ### Basic characterisations -/

theorem existsb_eq_true_iff (gv : GenVec T) (h : EntryHandle T) :
    existsb gv h = true ↔ genAt gv h.index = some h.generation := by
  cases hx : gv.vec[h.index]? with
  | none => simp [existsb, genAt, hx]
  | some el => simp [existsb, genAt, hx]

theorem genAt_eq_none_iff (gv : GenVec T) (i : Nat) :
    genAt gv i = none ↔ gv.vec.length ≤ i := by
  simp [genAt]

theorem alloc_empty_freelist (gv : GenVec T) (v : T) (hf : gv.freelist = []) :
    alloc gv v =
      .ok (⟨0, gv.vec.length⟩, { vec := gv.vec ++ [⟨0, v⟩], freelist := [] }) := by
  simp [alloc, hf]

theorem alloc_pop (gv : GenVec T) (v : T) (i : Nat) (rest : List Nat)
    (hf : gv.freelist = i :: rest) (el : GenVecEntry T)
    (hx : gv.vec[i]? = some el) :
    alloc gv v = .ok (⟨el.generation, i⟩,
      { vec := gv.vec.set i ⟨el.generation, v⟩, freelist := rest }) := by
  simp [alloc, hf, hx]

/-- Inversion for a non-panicking `alloc`. -/
theorem alloc_ok_inv {gv gv' : GenVec T} {v : T} {h : EntryHandle T}
    (hok : alloc gv v = .ok (h, gv')) :
    (gv.freelist = [] ∧ h = ⟨0, gv.vec.length⟩ ∧
      gv' = { vec := gv.vec ++ [⟨0, v⟩], freelist := [] }) ∨
    (∃ i rest el, gv.freelist = i :: rest ∧ gv.vec[i]? = some el ∧
      h = ⟨el.generation, i⟩ ∧
      gv' = { vec := gv.vec.set i ⟨el.generation, v⟩, freelist := rest }) := by
  cases hf : gv.freelist with
  | nil =>
    rw [alloc_empty_freelist gv v hf] at hok
    simp only [PanicOr.ok.injEq, Prod.mk.injEq] at hok
    exact .inl ⟨rfl, hok.1.symm, hok.2.symm⟩
  | cons i rest =>
    cases hx : gv.vec[i]? with
    | none => simp [alloc, hf, hx] at hok
    | some el =>
      rw [alloc_pop gv v i rest hf el hx] at hok
      simp only [PanicOr.ok.injEq, Prod.mk.injEq] at hok
      exact .inr ⟨i, rest, el, rfl, hx, hok.1.symm, hok.2.symm⟩

theorem free_mismatch (gv : GenVec T) (h : EntryHandle T) (el : GenVecEntry T)
    (hx : gv.vec[h.index]? = some el) (hne : el.generation ≠ h.generation) :
    free gv h = .ok gv := by
  simp [free, hx, hne]

theorem free_match (gv : GenVec T) (h : EntryHandle T) (el : GenVecEntry T)
    (hx : gv.vec[h.index]? = some el) (heq : el.generation = h.generation)
    (hlt : el.generation + 1 < 2 ^ 64) :
    free gv h =
      .ok { vec := gv.vec.set h.index ⟨el.generation + 1, el.data⟩,
            freelist := h.index :: gv.freelist } := by
  have hlt2 : h.generation + 1 < 2 ^ 64 := heq ▸ hlt
  simp [free, hx, heq, hlt2]
  omega

/-- Inversion for a non-panicking `free`. -/
theorem free_ok_inv {gv gv' : GenVec T} {h : EntryHandle T}
    (hok : free gv h = .ok gv') :
    ∃ el, gv.vec[h.index]? = some el ∧
      ((el.generation ≠ h.generation ∧ gv' = gv) ∨
       (el.generation = h.generation ∧ el.generation + 1 < 2 ^ 64 ∧
        gv' = { vec := gv.vec.set h.index ⟨el.generation + 1, el.data⟩,
                freelist := h.index :: gv.freelist })) := by
  cases hx : gv.vec[h.index]? with
  | none => simp [free, hx] at hok
  | some el =>
    by_cases hne : el.generation ≠ h.generation
    · rw [free_mismatch gv h el hx hne] at hok
      simp only [PanicOr.ok.injEq] at hok
      exact ⟨el, rfl, .inl ⟨hne, hok.symm⟩⟩

    · push_neg at hne
      by_cases hlt : el.generation + 1 < 2 ^ 64
      · rw [free_match gv h el hx hne hlt] at hok
        simp only [PanicOr.ok.injEq] at hok
        exact ⟨el, rfl, .inr ⟨hne, hlt, hok.symm⟩⟩
      · have h2 : ¬ h.generation + 1 < 2 ^ 64 := hne ▸ hlt
        simp [free, hx, hne, h2] at hok
        rw [if_neg (by omega)] at hok
        cases hok

/-! ### Effect of the operations on stored generations -/

theorem free_length {gv gv' : GenVec T} {h : EntryHandle T}
    (hok : free gv h = .ok gv') : gv'.vec.length = gv.vec.length := by
  obtain ⟨el, hx, hcase⟩ := free_ok_inv hok
  rcases hcase with ⟨-, rfl⟩ | ⟨-, -, rfl⟩
  · rfl
  · simp

theorem alloc_genAt {gv gv' : GenVec T} {v : T} {h : EntryHandle T}
    (hok : alloc gv v = .ok (h, gv')) (i : Nat) (hi : i < gv.vec.length) :
    genAt gv' i = genAt gv i := by
  rcases alloc_ok_inv hok with ⟨-, -, rfl⟩ | ⟨j, rest, el, hf, hx, -, rfl⟩
  · simp [genAt, List.getElem?_append_left hi]
  · by_cases hij : j = i
    · subst hij
      have hj : j < gv.vec.length := by
        by_contra hc
        rw [List.getElem?_eq_none (by omega)] at hx
        cases hx
      simp [genAt, hx, List.getElem?_set_eq_of_lt _ hj]
    · simp [genAt, List.getElem?_set_ne hij]

theorem alloc_genAt_new {gv gv' : GenVec T} {v : T} {h : EntryHandle T}
    (hok : alloc gv v = .ok (h, gv')) :
    genAt gv' h.index = some h.generation := by
  rcases alloc_ok_inv hok with ⟨-, rfl, rfl⟩ | ⟨j, rest, el, hf, hx, rfl, rfl⟩
  · simp [genAt, List.getElem?_concat_length]
  · have hj : j < gv.vec.length := by
      by_contra hc
      rw [List.getElem?_eq_none (by omega)] at hx
      cases hx
    simp [genAt, List.getElem?_set_eq_of_lt _ hj]

theorem free_genAt_ne {gv gv' : GenVec T} {h : EntryHandle T}
    (hok : free gv h = .ok gv') (i : Nat) (hne : i ≠ h.index) :
    genAt gv' i = genAt gv i := by
  obtain ⟨el, hx, hcase⟩ := free_ok_inv hok
  rcases hcase with ⟨-, rfl⟩ | ⟨-, -, rfl⟩
  · rfl
  · simp [genAt, List.getElem?_set_ne (fun a => hne a.symm)]

theorem free_genAt_self {gv gv' : GenVec T} {h : EntryHandle T}
    (hok : free gv h = .ok gv') :
    genAt gv' h.index = genAt gv h.index ∨
      (genAt gv h.index = some h.generation ∧
       genAt gv' h.index = some (h.generation + 1)) := by
  obtain ⟨el, hx, hcase⟩ := free_ok_inv hok
  rcases hcase with ⟨-, rfl⟩ | ⟨heq, -, rfl⟩
  · exact .inl rfl
  · refine .inr ⟨by simp [genAt, hx, heq], ?_⟩
    have hj : h.index < gv.vec.length := by
      by_contra hc
      rw [List.getElem?_eq_none (by omega)] at hx
      cases hx
    simp [genAt, List.getElem?_set_eq_of_lt _ hj, heq]

/-! ### Step relation: one `alloc` or one successful `free` -/

/-- One non-panicking arena operation, with an arbitrary (possibly forged)
handle in the `free` case. -/
inductive Step : GenVec T → GenVec T → Prop where
  | alloc {gv gv' : GenVec T} (v : T) (h : EntryHandle T)
      (hok : GenVec.alloc gv v = .ok (h, gv')) : Step gv gv'
  | free {gv gv' : GenVec T} (h : EntryHandle T)
      (hok : GenVec.free gv h = .ok gv') : Step gv gv'

/-- Any finite sequence of non-panicking operations. -/
def Steps (gv gv' : GenVec T) : Prop :=
  Relation.ReflTransGen Step gv gv'

theorem step_genAt_mono {gv gv' : GenVec T} (hs : Step gv gv')
    {i g : Nat} (hg : genAt gv i = some g) :
    ∃ g', genAt gv' i = some g' ∧ g ≤ g' := by
  have hi : i < gv.vec.length := by
    by_contra hc
    rw [(genAt_eq_none_iff gv i).mpr (by omega)] at hg
    cases hg
  cases hs with
  | alloc v h hok => exact ⟨g, by rw [alloc_genAt hok i hi, hg], le_refl g⟩
  | free h hok =>
    by_cases hih : i = h.index
    · subst hih
      rcases free_genAt_self hok with heq | ⟨hold, hnew⟩
      · exact ⟨g, by rw [heq, hg], le_refl g⟩
      · rw [hg] at hold
        cases hold
        exact ⟨h.generation + 1, hnew, Nat.le_succ _⟩
    · exact ⟨g, by rw [free_genAt_ne hok i hih, hg], le_refl g⟩

theorem steps_genAt_mono {gv gv' : GenVec T} (hs : Steps gv gv')
    {i g : Nat} (hg : genAt gv i = some g) :
    ∃ g', genAt gv' i = some g' ∧ g ≤ g' := by
  induction hs using Relation.ReflTransGen.head_induction_on generalizing g with
  | refl => exact ⟨g, hg, le_refl g⟩
  | head hstep _ ih =>
    obtain ⟨g₁, hg₁, hle₁⟩ := step_genAt_mono hstep hg
    obtain ⟨g₂, hg₂, hle₂⟩ := ih hg₁
    exact ⟨g₂, hg₂, le_trans hle₁ hle₂⟩

/-! ### Reachable states and the free-list invariant -/

theorem lt_of_getElem?_eq_some {α : Type} {l : List α} {i : Nat} {a : α}
    (hx : l[i]? = some a) : i < l.length := by
  by_contra hc
  rw [List.getElem?_eq_none (by omega)] at hx
  cases hx

/-- States reachable from `with_capacity` when `free` is only ever called
with handles the arena itself issued; `H` collects every handle `alloc`
has returned so far. -/
inductive Reach : GenVec T → List (EntryHandle T) → Prop where
  | create (capacity : Nat) : Reach (with_capacity capacity) []
  | alloc_step {gv gv' : GenVec T} {H : List (EntryHandle T)} {v : T}
      {h : EntryHandle T} (hr : Reach gv H)
      (hok : GenVec.alloc gv v = .ok (h, gv')) : Reach gv' (h :: H)
  | free_step {gv gv' : GenVec T} {H : List (EntryHandle T)}
      {h : EntryHandle T} (hr : Reach gv H) (hmem : h ∈ H)
      (hok : GenVec.free gv h = .ok gv') : Reach gv' H

/-- Invariant tying a state to the set of handles it has issued:
free-list entries are in bounds and unique, issued handles are in bounds,
an issued handle's generation never exceeds its slot's stored generation,
and is strictly below it while the slot sits on the free list. -/
structure Inv (gv : GenVec T) (H : List (EntryHandle T)) : Prop where
  free_lt : ∀ i ∈ gv.freelist, i < gv.vec.length
  free_nodup : gv.freelist.Nodup
  issued_lt : ∀ h ∈ H, h.index < gv.vec.length
  issued_le : ∀ h ∈ H, ∀ g, genAt gv h.index = some g → h.generation ≤ g
  issued_freed_lt : ∀ h ∈ H, h.index ∈ gv.freelist →
      ∀ g, genAt gv h.index = some g → h.generation < g

theorem reach_inv {gv : GenVec T} {H : List (EntryHandle T)}
    (hr : Reach gv H) : Inv gv H := by
  induction hr with
  | create capacity =>
    exact ⟨by simp [with_capacity], by simp [with_capacity],
      by simp, by simp, by simp⟩
  | alloc_step hr hok ih =>
    rename_i gv gv' H v h
    rcases alloc_ok_inv hok with ⟨hf, rfl, rfl⟩ | ⟨j, rest, el, hf, hx, rfl, rfl⟩
    · refine ⟨by simp, by simp, ?_, ?_, by simp⟩
      · intro h' hh'
        rcases List.mem_cons.mp hh' with rfl | hh'
        · simp
        · have := ih.issued_lt h' hh'
          simp only [List.length_append, List.length_cons, List.length_nil]
          omega
      · intro h' hh' g hg
        rcases List.mem_cons.mp hh' with rfl | hh'
        · simp only [genAt, List.getElem?_concat_length, Option.map_some'] at hg
          cases hg
          exact le_refl _
        · have hlt := ih.issued_lt h' hh'
          rw [show genAt { vec := gv.vec ++ [⟨0, v⟩], freelist := [] } h'.index
                = genAt gv h'.index by
              simp [genAt, List.getElem?_append_left hlt]] at hg
          exact ih.issued_le h' hh' g hg
    · have hj : j < gv.vec.length := lt_of_getElem?_eq_some hx
      have hgen : ∀ i,
          genAt (GenVec.mk (gv.vec.set j ⟨el.generation, v⟩) rest) i = genAt gv i := by
        intro i
        by_cases hij : j = i
        · subst hij
          simp [genAt, hx, List.getElem?_set_eq_of_lt _ hj]
        · simp [genAt, List.getElem?_set_ne hij]
      have hnd := ih.free_nodup
      rw [hf, List.nodup_cons] at hnd
      refine ⟨?_, hnd.2, ?_, ?_, ?_⟩
      · intro i hi
        have : i ∈ gv.freelist := hf ▸ List.mem_cons_of_mem j hi
        have := ih.free_lt i this
        simpa using this
      · intro h' hh'
        rcases List.mem_cons.mp hh' with rfl | hh'
        · simpa using hj
        · have := ih.issued_lt h' hh'
          simpa using this
      · intro h' hh' g hg
        rw [hgen] at hg
        rcases List.mem_cons.mp hh' with rfl | hh'
        · simp only [genAt, hx, Option.map_some'] at hg
          cases hg
          exact le_refl _
        · exact ih.issued_le h' hh' g hg
      · intro h' hh' hif g hg
        rw [hgen] at hg
        rcases List.mem_cons.mp hh' with rfl | hh'
        · exact absurd hif hnd.1
        · exact ih.issued_freed_lt h' hh'
            (hf ▸ List.mem_cons_of_mem j hif) g hg
  | free_step hr hmem hok ih =>
    rename_i gv gv' H h
    obtain ⟨el, hx, hcase⟩ := free_ok_inv hok
    rcases hcase with ⟨-, rfl⟩ | ⟨heq, hlt, rfl⟩
    · exact ih
    · have hj : h.index < gv.vec.length := lt_of_getElem?_eq_some hx
      have hgAt : genAt gv h.index = some el.generation := by simp [genAt, hx]
      have hnotin : h.index ∉ gv.freelist := by
        intro hin
        have := ih.issued_freed_lt h hmem hin el.generation hgAt
        rw [heq] at this
        exact lt_irrefl _ this
      have hgAt' :
          genAt (GenVec.mk (gv.vec.set h.index ⟨el.generation + 1, el.data⟩) (h.index :: gv.freelist)) h.index = some (el.generation + 1) := by
        simp [genAt, List.getElem?_set_eq_of_lt _ hj]
      have hgNe : ∀ i, i ≠ h.index →
          genAt (GenVec.mk (gv.vec.set h.index ⟨el.generation + 1, el.data⟩) (h.index :: gv.freelist)) i = genAt gv i := by
        intro i hne
        simp [genAt, List.getElem?_set_ne (fun a => hne a.symm)]
      refine ⟨?_, List.nodup_cons.mpr ⟨hnotin, ih.free_nodup⟩, ?_, ?_, ?_⟩
      · intro i hi
        rcases List.mem_cons.mp hi with rfl | hi
        · simpa using hj
        · have := ih.free_lt i hi
          simpa using this
      · intro h' hh'
        have := ih.issued_lt h' hh'
        simpa using this
      · intro h' hh' g hg
        by_cases hii : h'.index = h.index
        · rw [hii, hgAt'] at hg
          cases hg
          have := ih.issued_le h' hh' el.generation (hii ▸ hgAt)
          omega
        · rw [hgNe h'.index hii] at hg
          exact ih.issued_le h' hh' g hg
      · intro h' hh' hif g hg
        by_cases hii : h'.index = h.index
        · rw [hii, hgAt'] at hg
          cases hg
          have := ih.issued_le h' hh' el.generation (hii ▸ hgAt)
          omega
        · rw [hgNe h'.index hii] at hg
          rcases List.mem_cons.mp hif with heq' | hif
          · exact absurd heq' hii
          · exact ih.issued_freed_lt h' hh' hif g hg

/-- Under the invariant, `alloc` cannot panic. -/
theorem alloc_ok_of_inv {gv : GenVec T} {H : List (EntryHandle T)}
    (hinv : Inv gv H) (v : T) : ∃ r, alloc gv v = .ok r := by
  cases hf : gv.freelist with
  | nil => exact ⟨_, alloc_empty_freelist gv v hf⟩
  | cons i rest =>
    have hi : i < gv.vec.length := hinv.free_lt i (hf ▸ List.mem_cons_self i rest)
    obtain ⟨el, hx⟩ : ∃ el, gv.vec[i]? = some el :=
      ⟨gv.vec[i], List.getElem?_eq_getElem hi⟩
    exact ⟨_, alloc_pop gv v i rest hf el hx⟩

end GenVec

namespace GenVec

/-! ### Claim theorems -/

/-- C5: `exists` returns `true` iff the handle's position is within the
current slot-sequence bounds and that slot's generation equals the
handle's generation; it never fails, and an out-of-range position yields
`false` rather than an error (`existsb` is total by construction). -/
theorem c5_exists_characterisation {T : Type} (gv : GenVec T)
    (h : EntryHandle T) :
    (existsb gv h = true ↔
      ∃ hix : h.index < gv.vec.length,
        (gv.vec.get ⟨h.index, hix⟩).generation = h.generation) ∧
    (gv.vec.length ≤ h.index → existsb gv h = false) := by
  constructor
  · rw [existsb_eq_true_iff]
    unfold genAt
    rw [Option.map_eq_some']
    constructor
    · rintro ⟨el, hx, hgen⟩
      have hix := lt_of_getElem?_eq_some hx
      refine ⟨hix, ?_⟩
      rw [List.getElem?_eq_getElem hix] at hx
      cases hx
      simpa using hgen
    · rintro ⟨hix, hgen⟩
      exact ⟨gv.vec.get ⟨h.index, hix⟩,
        by rw [List.getElem?_eq_getElem hix]; simp, hgen⟩
  · intro hle
    simp [existsb, List.getElem?_eq_none hle]

/-- C5 witness. -/
theorem c5_witness :
    (existsb (GenVec.mk [⟨0, (5 : Nat)⟩] []) ⟨0, 0⟩ = true ↔
      ∃ hix : (0 : Nat) < (GenVec.mk [⟨0, (5 : Nat)⟩] []).vec.length,
        ((GenVec.mk [⟨0, (5 : Nat)⟩] []).vec.get ⟨0, hix⟩).generation = 0) ∧
    existsb (GenVec.mk [⟨0, (5 : Nat)⟩] []) ⟨0, 3⟩ = false :=
  ⟨(c5_exists_characterisation (GenVec.mk [⟨0, (5 : Nat)⟩] []) ⟨0, 0⟩).1,
   (c5_exists_characterisation (GenVec.mk [⟨0, (5 : Nat)⟩] []) ⟨0, 3⟩).2
     (by decide)⟩

/-- C6: a handle returned by a successful `alloc` immediately satisfies
`exists`, and `get_ref` on it returns exactly the value passed in. -/
theorem c6_alloc_fresh {T : Type} (gv gv' : GenVec T) (v : T)
    (h : EntryHandle T) (hok : alloc gv v = .ok (h, gv')) :
    existsb gv' h = true ∧ get_ref gv' h = .ok (some v) := by
  rcases alloc_ok_inv hok with ⟨hf, rfl, rfl⟩ | ⟨j, rest, el, hf, hx, rfl, rfl⟩
  · constructor
    · simp [existsb, List.getElem?_concat_length]
    · simp [get_ref, List.getElem?_concat_length]
  · have hj : j < gv.vec.length := lt_of_getElem?_eq_some hx
    constructor
    · simp [existsb, List.getElem?_set_eq_of_lt _ hj]
    · simp [get_ref, List.getElem?_set_eq_of_lt _ hj]

/-- C6 witness. -/
theorem c6_witness :
    existsb (GenVec.mk [⟨0, (777 : Nat)⟩] []) ⟨0, 0⟩ = true ∧
    get_ref (GenVec.mk [⟨0, (777 : Nat)⟩] []) ⟨0, 0⟩ = .ok (some 777) :=
  c6_alloc_fresh (GenVec.mk [] []) (GenVec.mk [⟨0, (777 : Nat)⟩] []) 777
    ⟨0, 0⟩ rfl

/-- C4: `free` on a handle whose generation differs from its named slot's
current generation is a silent no-op: it raises no fatal condition and
returns the arena (all slots and the free list) unchanged.  This covers
stale handles and never-valid in-range handles alike. -/
theorem c4_free_mismatch_noop {T : Type} (gv : GenVec T) (h : EntryHandle T)
    (hix : h.index < gv.vec.length)
    (hne : (gv.vec.get ⟨h.index, hix⟩).generation ≠ h.generation) :
    free gv h = .ok gv :=
  free_mismatch gv h _ (List.getElem?_eq_getElem hix) (by simpa using hne)

/-- C4 witness. -/
theorem c4_witness :
    free (GenVec.mk [⟨2, (9 : Nat)⟩] []) ⟨0, 0⟩ =
      .ok (GenVec.mk [⟨2, (9 : Nat)⟩] []) :=
  c4_free_mismatch_noop (GenVec.mk [⟨2, (9 : Nat)⟩] []) ⟨0, 0⟩
    (by decide) (by decide)

/-- C7: if `exists h` holds and `free h` completes, then afterwards
`exists h` is `false` and `get_ref h` returns absent.  Handles are plain
values, so any copy of `h` made before the free is the same
generation/position pair and the statement covers it as well. -/
theorem c7_free_invalidates {T : Type} (gv gv' : GenVec T)
    (h : EntryHandle T) (hex : existsb gv h = true)
    (hok : free gv h = .ok gv') :
    existsb gv' h = false ∧ get_ref gv' h = .ok none := by
  rw [existsb_eq_true_iff] at hex
  obtain ⟨el, hx, hcase⟩ := free_ok_inv hok
  have hel : el.generation = h.generation := by
    unfold genAt at hex
    rw [hx] at hex
    simpa using hex
  rcases hcase with ⟨hne, rfl⟩ | ⟨-, -, rfl⟩
  · exact absurd hel hne
  · have hj : h.index < gv.vec.length := lt_of_getElem?_eq_some hx
    have hx' := List.getElem?_set_eq_of_lt (l := gv.vec)
      (⟨el.generation + 1, el.data⟩ : GenVecEntry T) hj
    rw [hel] at hx' ⊢
    constructor
    · simp [existsb, hx']
    · simp [get_ref, hx']

/-- C7 witness. -/
theorem c7_witness :
    existsb (GenVec.mk [⟨1, (5 : Nat)⟩] [0]) ⟨0, 0⟩ = false ∧
    get_ref (GenVec.mk [⟨1, (5 : Nat)⟩] [0]) ⟨0, 0⟩ = .ok none :=
  c7_free_invalidates (GenVec.mk [⟨0, (5 : Nat)⟩] [])
    (GenVec.mk [⟨1, (5 : Nat)⟩] [0]) ⟨0, 0⟩ (by decide) (by decide)

/-- C9: a genuine live-to-freed transition pushes exactly one entry (the
freed position) onto the free list, and repeating the same `free` is a
no-op that leaves the whole state unchanged, so the free list cannot gain
a second entry for the same transition. -/
theorem c9_double_free_noop {T : Type} (gv gv' : GenVec T)
    (h : EntryHandle T) (hex : existsb gv h = true)
    (hok : free gv h = .ok gv') :
    gv'.freelist = h.index :: gv.freelist ∧ free gv' h = .ok gv' := by
  rw [existsb_eq_true_iff] at hex
  obtain ⟨el, hx, hcase⟩ := free_ok_inv hok
  have hel : el.generation = h.generation := by
    unfold genAt at hex
    rw [hx] at hex
    simpa using hex
  rcases hcase with ⟨hne, rfl⟩ | ⟨-, -, rfl⟩
  · exact absurd hel hne
  · have hj : h.index < gv.vec.length := lt_of_getElem?_eq_some hx
    have hx' := List.getElem?_set_eq_of_lt (l := gv.vec)
      (⟨el.generation + 1, el.data⟩ : GenVecEntry T) hj
    refine ⟨rfl, free_mismatch _ h ⟨el.generation + 1, el.data⟩ hx' ?_⟩
    simp
    omega

/-- C9 witness. -/
theorem c9_witness :
    (GenVec.mk [⟨1, (5 : Nat)⟩] [0]).freelist = 0 :: [] ∧
    free (GenVec.mk [⟨1, (5 : Nat)⟩] [0]) ⟨0, 0⟩ =
      .ok (GenVec.mk [⟨1, (5 : Nat)⟩] [0]) :=
  c9_double_free_noop (GenVec.mk [⟨0, (5 : Nat)⟩] [])
    (GenVec.mk [⟨1, (5 : Nat)⟩] [0]) ⟨0, 0⟩ (by decide) (by decide)

end GenVec

namespace GenVec

/-- C1 (failing-input evaluation): on a fresh arena, alloc 10 at slot 0,
free it, then alloc 20.  The reused slot holds the live value 20 at odd
generation 1: its handle satisfies `exists` and `get_ref` returns 20,
yet `iter` — which filters on generation parity — yields nothing, and
`iter_mut` visits nothing either. -/
theorem c1_iter_misses_live_reused_slot :
    alloc (GenVec.mk ([] : List (GenVecEntry Nat)) []) 10 =
      .ok (⟨0, 0⟩, GenVec.mk [⟨0, 10⟩] []) ∧
    free (GenVec.mk [⟨0, (10 : Nat)⟩] []) ⟨0, 0⟩ =
      .ok (GenVec.mk [⟨1, 10⟩] [0]) ∧
    alloc (GenVec.mk [⟨1, (10 : Nat)⟩] [0]) 20 =
      .ok (⟨1, 0⟩, GenVec.mk [⟨1, 20⟩] []) ∧
    existsb (GenVec.mk [⟨1, (20 : Nat)⟩] []) ⟨1, 0⟩ = true ∧
    get_ref (GenVec.mk [⟨1, (20 : Nat)⟩] []) ⟨1, 0⟩ = .ok (some 20) ∧
    iter (GenVec.mk [⟨1, (20 : Nat)⟩] []) = [] ∧
    iter_mut (GenVec.mk [⟨1, (20 : Nat)⟩] []) = [] := by
  decide

/-- C2: (a) when `alloc` reuses a slot popped from the free list, the
returned handle's generation equals the generation already stored in that
slot, and the slot's stored generation is unchanged afterwards (no
increment); (b) every get/index accessor decides liveness by strict
generation equality; (c) hence an accessor accepts a matching handle even
when its generation is odd. -/
theorem c2_reuse_generation_and_equality_liveness {T : Type} :
    (∀ (gv gv' : GenVec T) (v : T) (h : EntryHandle T),
      gv.freelist ≠ [] → alloc gv v = .ok (h, gv') →
      genAt gv h.index = some h.generation ∧
      genAt gv' h.index = some h.generation) ∧
    (∀ (gv : GenVec T) (h : EntryHandle T)
      (hix : h.index < gv.vec.length),
      get_ref gv h = .ok
        (if (gv.vec.get ⟨h.index, hix⟩).generation = h.generation
          then some (gv.vec.get ⟨h.index, hix⟩).data else none) ∧
      get_mut gv h = .ok
        (if (gv.vec.get ⟨h.index, hix⟩).generation = h.generation
          then some (gv.vec.get ⟨h.index, hix⟩).data else none) ∧
      get_copy gv h = .ok
        (if (gv.vec.get ⟨h.index, hix⟩).generation = h.generation
          then some (gv.vec.get ⟨h.index, hix⟩).data else none) ∧
      index_ref gv h =
        (if (gv.vec.get ⟨h.index, hix⟩).generation = h.generation
          then .ok (gv.vec.get ⟨h.index, hix⟩).data else .panic) ∧
      index_mut gv h =
        (if (gv.vec.get ⟨h.index, hix⟩).generation = h.generation
          then .ok (gv.vec.get ⟨h.index, hix⟩).data else .panic) ∧
      index_copy gv h =
        (if (gv.vec.get ⟨h.index, hix⟩).generation = h.generation
          then .ok (gv.vec.get ⟨h.index, hix⟩).data else .panic)) ∧
    (∀ (gv : GenVec T) (h : EntryHandle T)
      (hix : h.index < gv.vec.length),
      h.generation % 2 = 1 →
      (gv.vec.get ⟨h.index, hix⟩).generation = h.generation →
      get_ref gv h = .ok (some (gv.vec.get ⟨h.index, hix⟩).data) ∧
      index_ref gv h = .ok (gv.vec.get ⟨h.index, hix⟩).data) := by
  refine ⟨?_, ?_, ?_⟩
  · intro gv gv' v h hf hok
    rcases alloc_ok_inv hok with ⟨hnil, -, -⟩ | ⟨j, rest, el, hf', hx, rfl, rfl⟩
    · exact absurd hnil hf
    · have hj : j < gv.vec.length := lt_of_getElem?_eq_some hx
      constructor
      · simp [genAt, hx]
      · simp [genAt, List.getElem?_set_eq_of_lt _ hj]
  · intro gv h hix
    have hx : gv.vec[h.index]? = some (gv.vec.get ⟨h.index, hix⟩) := by
      rw [List.getElem?_eq_getElem hix]; simp
    refine ⟨?_, ?_, ?_, ?_, ?_, ?_⟩ <;>
      simp only [get_ref, get_mut, get_copy, index_ref, index_mut,
        index_copy, hx, List.get_eq_getElem, ite_not, apply_ite] <;>
      (split <;> simp_all)
  · intro gv h hix _hodd heq
    have hx : gv.vec[h.index]? = some (gv.vec.get ⟨h.index, hix⟩) := by
      rw [List.getElem?_eq_getElem hix]; simp
    have heq2 : gv.vec[h.index].generation = h.generation := by
      simpa using heq
    constructor
    · simp [get_ref, hx, heq2]
    · simp [index_ref, hx, heq2]

/-- C2 witness: the arena `{vec := [(gen 1, 10)], freelist := [0]}` (one
slot freed once) reallocated with 20 returns the odd handle (1, 0), and
the accessors accept it. -/
theorem c2_witness :
    (genAt (GenVec.mk [⟨1, (10 : Nat)⟩] [0]) 0 = some 1 ∧
     genAt (GenVec.mk [⟨1, (20 : Nat)⟩] []) 0 = some 1) ∧
    get_ref (GenVec.mk [⟨1, (20 : Nat)⟩] []) ⟨1, 0⟩ = .ok
      (if ((GenVec.mk [⟨1, (20 : Nat)⟩] []).vec.get
          ⟨0, by decide⟩).generation = 1
        then some (((GenVec.mk [⟨1, (20 : Nat)⟩] []).vec.get
          ⟨0, by decide⟩)).data else none) ∧
    get_ref (GenVec.mk [⟨1, (20 : Nat)⟩] []) ⟨1, 0⟩ = .ok (some 20) ∧
    index_ref (GenVec.mk [⟨1, (20 : Nat)⟩] []) ⟨1, 0⟩ = .ok 20 := by
  refine ⟨c2_reuse_generation_and_equality_liveness.1
      (GenVec.mk [⟨1, (10 : Nat)⟩] [0]) (GenVec.mk [⟨1, (20 : Nat)⟩] [])
      20 ⟨1, 0⟩ (by decide) (by decide),
    (c2_reuse_generation_and_equality_liveness.2.1
      (GenVec.mk [⟨1, (20 : Nat)⟩] []) ⟨1, 0⟩ (by decide)).1,
    ?_, ?_⟩
  · have h3 := c2_reuse_generation_and_equality_liveness.2.2
      (GenVec.mk [⟨1, (20 : Nat)⟩] []) ⟨1, 0⟩ (by decide)
      (by decide) (by decide)
    exact h3.1
  · have h3 := c2_reuse_generation_and_equality_liveness.2.2
      (GenVec.mk [⟨1, (20 : Nat)⟩] []) ⟨1, 0⟩ (by decide)
      (by decide) (by decide)
    exact h3.2

/-- C3 counterexample: on the empty arena the handle (0, 0) is out of
range, yet the optional-style accessors panic instead of returning the
absent result the claim promises. -/
theorem c3_counterexample :
    get_ref (GenVec.mk ([] : List (GenVecEntry Nat)) []) ⟨0, 0⟩ = .panic ∧
    get_mut (GenVec.mk ([] : List (GenVecEntry Nat)) []) ⟨0, 0⟩ = .panic ∧
    get_copy (GenVec.mk ([] : List (GenVecEntry Nat)) []) ⟨0, 0⟩ = .panic ∧
    get_ref (GenVec.mk ([] : List (GenVecEntry Nat)) []) ⟨0, 0⟩ ≠ .ok none ∧
    get_mut (GenVec.mk ([] : List (GenVecEntry Nat)) []) ⟨0, 0⟩ ≠ .ok none ∧
    get_copy (GenVec.mk ([] : List (GenVecEntry Nat)) []) ⟨0, 0⟩ ≠ .ok none := by
  decide

/-- C3 amended: the optional accessors index without a bounds check, so a
handle whose position is out of the backing storage's bounds makes them
panic rather than return absent; only `exists` treats out-of-range as
absent.  For in-range handles with a mismatched generation they do return
absent without panicking. -/
theorem c3_amended_oob_behaviour {T : Type} (gv : GenVec T)
    (h : EntryHandle T) :
    (gv.vec.length ≤ h.index →
      get_ref gv h = .panic ∧ get_mut gv h = .panic ∧
      get_copy gv h = .panic ∧ existsb gv h = false) ∧
    (∀ hix : h.index < gv.vec.length,
      (gv.vec.get ⟨h.index, hix⟩).generation ≠ h.generation →
      get_ref gv h = .ok none ∧ get_mut gv h = .ok none ∧
      get_copy gv h = .ok none) := by
  constructor
  · intro hle
    have hx : gv.vec[h.index]? = none := List.getElem?_eq_none hle
    exact ⟨by simp [get_ref, hx], by simp [get_mut, hx],
      by simp [get_copy, hx], by simp [existsb, hx]⟩
  · intro hix hne
    have hx : gv.vec[h.index]? = some (gv.vec.get ⟨h.index, hix⟩) := by
      rw [List.getElem?_eq_getElem hix]; simp
    have hne2 : ¬gv.vec[h.index].generation = h.generation := by
      simpa using hne
    exact ⟨by simp [get_ref, hx, hne2], by simp [get_mut, hx, hne2],
      by simp [get_copy, hx, hne2]⟩

/-- C3 amended witness. -/
theorem c3_amended_witness :
    (get_ref (GenVec.mk [⟨0, (7 : Nat)⟩] []) ⟨0, 4⟩ = .panic ∧
     get_mut (GenVec.mk [⟨0, (7 : Nat)⟩] []) ⟨0, 4⟩ = .panic ∧
     get_copy (GenVec.mk [⟨0, (7 : Nat)⟩] []) ⟨0, 4⟩ = .panic ∧
     existsb (GenVec.mk [⟨0, (7 : Nat)⟩] []) ⟨0, 4⟩ = false) ∧
    (get_ref (GenVec.mk [⟨0, (7 : Nat)⟩] []) ⟨3, 0⟩ = .ok none ∧
     get_mut (GenVec.mk [⟨0, (7 : Nat)⟩] []) ⟨3, 0⟩ = .ok none ∧
     get_copy (GenVec.mk [⟨0, (7 : Nat)⟩] []) ⟨3, 0⟩ = .ok none) :=
  ⟨(c3_amended_oob_behaviour (GenVec.mk [⟨0, (7 : Nat)⟩] []) ⟨0, 4⟩).1
      (by decide),
   (c3_amended_oob_behaviour (GenVec.mk [⟨0, (7 : Nat)⟩] []) ⟨3, 0⟩).2
      (by decide) (by decide)⟩

end GenVec

namespace GenVec

/-- C8: across any non-panicking operation each slot's stored generation
is non-decreasing; a successful `free` of a live handle increments its
slot's generation by exactly 1; `alloc` never changes the generation of
any pre-existing slot; consequently, once a handle has been freed, no
state reachable by further non-panicking operations satisfies `exists`
for that handle again. -/
theorem c8_generation_monotone {T : Type} :
    (∀ gv gv' : GenVec T, Step gv gv' → ∀ i g g',
      genAt gv i = some g → genAt gv' i = some g' → g ≤ g') ∧
    (∀ (gv gv' : GenVec T) (h : EntryHandle T),
      existsb gv h = true → free gv h = .ok gv' →
      genAt gv' h.index = some (h.generation + 1)) ∧
    (∀ (gv gv' : GenVec T) (v : T) (h : EntryHandle T),
      alloc gv v = .ok (h, gv') → ∀ i g,
      genAt gv i = some g → genAt gv' i = some g) ∧
    (∀ (gv gv₁ gv₂ : GenVec T) (h : EntryHandle T),
      existsb gv h = true → free gv h = .ok gv₁ → Steps gv₁ gv₂ →
      existsb gv₂ h = false) := by
  have part2 : ∀ (gv gv' : GenVec T) (h : EntryHandle T),
      existsb gv h = true → free gv h = .ok gv' →
      genAt gv' h.index = some (h.generation + 1) := by
    intro gv gv' h hex hok
    rw [existsb_eq_true_iff] at hex
    obtain ⟨el, hx, hcase⟩ := free_ok_inv hok
    have hel : el.generation = h.generation := by
      unfold genAt at hex
      rw [hx] at hex
      simpa using hex
    rcases hcase with ⟨hne, rfl⟩ | ⟨-, -, rfl⟩
    · exact absurd hel hne
    · have hj : h.index < gv.vec.length := lt_of_getElem?_eq_some hx
      simp [genAt, List.getElem?_set_eq_of_lt _ hj, hel]
  refine ⟨?_, part2, ?_, ?_⟩
  · intro gv gv' hs i g g' hg hg'
    obtain ⟨g'', hg'', hle⟩ := step_genAt_mono hs hg
    rw [hg''] at hg'
    cases hg'
    exact hle
  · intro gv gv' v h hok i g hg
    have hi : i < gv.vec.length := by
      by_contra hc
      rw [(genAt_eq_none_iff gv i).mpr (by omega)] at hg
      cases hg
    rw [alloc_genAt hok i hi]
    exact hg
  · intro gv gv₁ gv₂ h hex hok hsteps
    have h1 : genAt gv₁ h.index = some (h.generation + 1) :=
      part2 gv gv₁ h hex hok
    obtain ⟨g', hg', hle⟩ := steps_genAt_mono hsteps h1
    cases hb : existsb gv₂ h with
    | false => rfl
    | true =>
      rw [existsb_eq_true_iff] at hb
      rw [hb] at hg'
      cases hg'
      exact absurd hle (by omega)

/-- C8 witness: one slot arena, free the live handle (0, 0) (generation
0 → 1), then reallocate (generation stays 1); the freed handle stays
dead. -/
theorem c8_witness :
    (0 : Nat) ≤ 1 ∧
    genAt (GenVec.mk [⟨1, (5 : Nat)⟩] [0]) 0 = some (0 + 1) ∧
    genAt (GenVec.mk [⟨1, (7 : Nat)⟩] []) 0 = some 1 ∧
    existsb (GenVec.mk [⟨1, (5 : Nat)⟩] [0]) ⟨0, 0⟩ = false := by
  refine ⟨?_, ?_, ?_, ?_⟩
  · exact c8_generation_monotone.1 (GenVec.mk [⟨0, (5 : Nat)⟩] [])
      (GenVec.mk [⟨1, (5 : Nat)⟩] [0])
      (Step.free ⟨0, 0⟩ (by decide)) 0 0 1 (by decide) (by decide)
  · exact c8_generation_monotone.2.1 (GenVec.mk [⟨0, (5 : Nat)⟩] [])
      (GenVec.mk [⟨1, (5 : Nat)⟩] [0]) ⟨0, 0⟩ (by decide) (by decide)
  · exact c8_generation_monotone.2.2.1 (GenVec.mk [⟨1, (5 : Nat)⟩] [0])
      (GenVec.mk [⟨1, (7 : Nat)⟩] []) 7 ⟨1, 0⟩ (by decide) 0 1 (by decide)
  · exact c8_generation_monotone.2.2.2 (GenVec.mk [⟨0, (5 : Nat)⟩] [])
      (GenVec.mk [⟨1, (5 : Nat)⟩] [0]) (GenVec.mk [⟨1, (5 : Nat)⟩] [0])
      ⟨0, 0⟩ (by decide) (by decide) Relation.ReflTransGen.refl

/-- C10: in every state reachable from `with_capacity` by `alloc`/`free`
using only handles the arena itself issued, every free-list entry is
strictly below the slot count and appears at most once; consequently
`alloc` — whose reuse branch indexes the slot vector at a popped
free-list position — never panics. -/
theorem c10_freelist_wf {T : Type} (gv : GenVec T)
    (H : List (EntryHandle T)) (hr : Reach gv H) :
    (∀ i ∈ gv.freelist, i < gv.vec.length) ∧
    gv.freelist.Nodup ∧
    (∀ v, ∃ r, alloc gv v = .ok r) := by
  have hinv := reach_inv hr
  exact ⟨hinv.free_lt, hinv.free_nodup, fun v => alloc_ok_of_inv hinv v⟩

/-- C10 witness: the reachable state after `alloc 10` then `free` on a
fresh arena. -/
theorem c10_witness :
    (∀ i ∈ (GenVec.mk [⟨1, (10 : Nat)⟩] [0]).freelist,
      i < (GenVec.mk [⟨1, (10 : Nat)⟩] [0]).vec.length) ∧
    (GenVec.mk [⟨1, (10 : Nat)⟩] [0]).freelist.Nodup ∧
    (∃ r, alloc (GenVec.mk [⟨1, (10 : Nat)⟩] [0]) 20 = .ok r) := by
  have h1 : Reach (GenVec.mk ([] : List (GenVecEntry Nat)) []) [] :=
    Reach.create 0
  have h2 : Reach (GenVec.mk [⟨0, (10 : Nat)⟩] [])
      [(⟨0, 0⟩ : EntryHandle Nat)] := Reach.alloc_step (v := 10) h1 (by decide)
  have h3 : Reach (GenVec.mk [⟨1, (10 : Nat)⟩] [0])
      [(⟨0, 0⟩ : EntryHandle Nat)] :=
    Reach.free_step h2 (List.mem_singleton.mpr rfl) (by decide)
  obtain ⟨ha, hb, hc⟩ := c10_freelist_wf _ _ h3
  exact ⟨ha, hb, hc 20⟩

end GenVec
